import Mathlib

/-!
Verification of the caching layer (`cache_layer.py`): a TTL-aware LRU cache
(`LRUCache`) and a cache-aside wrapper over a user store (`CachedUserStore`).

Python strings are modelled as `List Char`; `time.time()` instants as `Nat`
ticks; the `float('inf')` expiry as `Option Nat` with `none` standing for
plus-infinity; the `OrderedDict` as an association list whose front is the
least-recently-used entry and whose back is the most-recently-used one.
-/

/-- Python strings, modelled as lists of characters. -/
abbrev Str := List Char

/-- Python's `str.lower()`. -/
def strLower (s : Str) : Str := s.map Char.toLower

/-- Lookup in the ordered dictionary (first matching key). -/
def odGet {V : Type} (l : List (Str × V)) (k : Str) : Option V :=
  match l with
  | [] => none
  | (k', v) :: rest => if k' = k then some v else odGet rest k

/-- `del d[k]` / `d.pop(k, None)` on the ordered dictionary: removes the
entry with key `k` (keys are unique in every reachable state, so removing
every pair with that key is the same operation). -/
def odErase {V : Type} (l : List (Str × V)) (k : Str) : List (Str × V) :=
  l.filter (fun p => decide (p.1 ≠ k))

/-- `CacheEntry.__init__`: `expiry = time.time() + ttl if ttl > 0 else
float('inf')`; `none` models the infinite expiry. -/
structure CacheEntry (V : Type) where
  value : V
  expiry : Option Nat
deriving Repr, DecidableEq

/-- Builds a `CacheEntry` the way the Python constructor does at instant
`now`. -/
def CacheEntry.make {V : Type} (now : Nat) (value : V) (ttl : Int) : CacheEntry V :=
  ⟨value, if ttl > 0 then some (now + ttl.toNat) else none⟩

/-- `CacheEntry.is_expired`: `time.time() > self.expiry` (strict), always
false on the infinite expiry. -/
def CacheEntry.is_expired {V : Type} (e : CacheEntry V) (now : Nat) : Bool :=
  match e.expiry with
  | none => false
  | some t => now > t

/-- State of `LRUCache`: capacity, default TTL, the ordered map and the three
counters.  `max_size` is an `Int` because the Python constructor accepts any
integer unchecked. -/
structure LRUCache (V : Type) where
  max_size : Int
  default_ttl : Int
  cache : List (Str × CacheEntry V)
  hits : Nat
  misses : Nat
  evictions : Nat
deriving Repr, DecidableEq

/-- `LRUCache.__init__`: stores `max_size` and `default_ttl` as given (no
validation of any kind), empty map, zeroed counters. -/
def LRUCache.init {V : Type} (max_size default_ttl : Int) : LRUCache V :=
  ⟨max_size, default_ttl, [], 0, 0, 0⟩

/-- `LRUCache.get`: miss on absent key; expired entry is deleted and counted
as a miss; otherwise the key is moved to the most-recently-used end and the
hit is counted. Returns the Python return value paired with the new state. -/
def LRUCache.get {V : Type} (s : LRUCache V) (now : Nat) (key : Str) :
    Option V × LRUCache V :=
  match odGet s.cache key with
  | none => (none, { s with misses := s.misses + 1 })
  | some entry =>
    if entry.is_expired now then
      (none, { s with cache := odErase s.cache key, misses := s.misses + 1 })
    else
      (some entry.value,
        { s with cache := odErase s.cache key ++ [(key, entry)],
                 hits := s.hits + 1 })

/-- `LRUCache.set`: uses `default_ttl` when `ttl` is `None`, removes any old
entry for the key, appends the fresh entry at the most-recently-used end, and
if the map is now over `max_size` pops the least-recently-used entry (the
front) and counts one eviction. -/
def LRUCache.set {V : Type} (s : LRUCache V) (now : Nat) (key : Str) (value : V)
    (ttl : Option Int) : LRUCache V :=
  let t := ttl.getD s.default_ttl
  let c1 := odErase s.cache key ++ [(key, CacheEntry.make now value t)]
  if (c1.length : Int) > s.max_size then
    { s with cache := c1.drop 1, evictions := s.evictions + 1 }
  else
    { s with cache := c1 }

/-- `LRUCache.delete`: removes the key if present, reporting whether it was. -/
def LRUCache.delete {V : Type} (s : LRUCache V) (key : Str) : Bool × LRUCache V :=
  if (odGet s.cache key).isSome then
    (true, { s with cache := odErase s.cache key })
  else
    (false, s)

/-- `LRUCache.clear`: empties the map and resets all three counters. -/
def LRUCache.clear {V : Type} (s : LRUCache V) : LRUCache V :=
  { s with cache := [], hits := 0, misses := 0, evictions := 0 }

/-- `LRUCache.cleanup_expired`: removes every expired entry, returning how
many were removed. -/
def LRUCache.cleanup_expired {V : Type} (s : LRUCache V) (now : Nat) :
    Nat × LRUCache V :=
  let expired := s.cache.filter (fun p => p.2.is_expired now)
  (expired.length,
   { s with cache := s.cache.filter (fun p => !(p.2.is_expired now)) })

/-- Rounding a rational to two decimal places, modelling Python's
`round(x, 2)` in `get_stats`. -/
def round2 (q : ℚ) : ℚ := (round (q * 100) : ℤ) / 100

/-- The dictionary returned by `LRUCache.get_stats`. -/
structure CacheStats where
  size : Nat
  max_size : Int
  hits : Nat
  misses : Nat
  evictions : Nat
  hit_rate : ℚ
deriving Repr, DecidableEq

/-- `LRUCache.get_stats`: size, capacity, the three counters, and the hit
rate `hits / (hits + misses) * 100` rounded to two decimals (`0` when there
have been no requests). -/
def LRUCache.get_stats {V : Type} (s : LRUCache V) : CacheStats :=
  let total := s.hits + s.misses
  let hit_rate : ℚ := if total > 0 then (s.hits : ℚ) / (total : ℚ) * 100 else 0
  ⟨s.cache.length, s.max_size, s.hits, s.misses, s.evictions, round2 hit_rate⟩

/-- A public operation on the cache, tagged with the instant at which it
runs where the code reads the clock. -/
inductive CacheOp (V : Type) where
  | get (now : Nat) (key : Str)
  | set (now : Nat) (key : Str) (value : V) (ttl : Option Int)
  | del (key : Str)
  | clear
  | cleanup (now : Nat)

/-- Runs one public operation, keeping only the state. -/
def applyOp {V : Type} (s : LRUCache V) : CacheOp V → LRUCache V
  | .get now k => (s.get now k).2
  | .set now k v t => s.set now k v t
  | .del k => (s.delete k).2
  | .clear => s.clear
  | .cleanup now => (s.cleanup_expired now).2

/-- Runs a sequence of public operations. -/
def execOps {V : Type} (s : LRUCache V) (ops : List (CacheOp V)) : LRUCache V :=
  ops.foldl applyOp s

/-! ### The cache-aside wrapper `CachedUserStore` -/

/-- A user record: the fields of the Python `user_data` dict that the cache
layer reads (`email`, `user_id`). -/
structure Record where
  email : Str
  user_id : Str
deriving Repr, DecidableEq

/-- A cached value in the wrapper's cache: either a full user record or the
boolean duplicate flag. -/
inductive CVal where
  | record (r : Record)
  | flag (b : Bool)
deriving Repr, DecidableEq

/-- `CachedUserStore._email_key`: `"email:" + email.lower()`. -/
def email_key (email : Str) : Str :=
  'e' :: 'm' :: 'a' :: 'i' :: 'l' :: ':' :: strLower email

/-- `CachedUserStore._id_key`: `"id:" + user_id`. -/
def id_key (user_id : Str) : Str := 'i' :: 'd' :: ':' :: user_id

/-- `CachedUserStore._duplicate_key`: `"dup:" + email.lower()`. -/
def duplicate_key (email : Str) : Str := 'd' :: 'u' :: 'p' :: ':' :: strLower email

/-- `CachedUserStore._matches_pattern`: exact equality when the pattern has
no `*`; prefix match for a trailing `*`; suffix match for a leading `*`;
otherwise split at the first `*` and require the part before it as prefix
and the part after it as suffix. -/
def matches_pattern (key pattern : Str) : Bool :=
  if '*' ∉ pattern then
    key = pattern
  else if pattern.getLast? = some '*' then
    List.isPrefixOf (pattern.dropLast) key
  else if pattern.head? = some '*' then
    List.isSuffixOf (pattern.drop 1) key
  else
    List.isPrefixOf (pattern.takeWhile (· ≠ '*')) key &&
      List.isSuffixOf ((pattern.dropWhile (· ≠ '*')).drop 1) key

/-- `CachedUserStore._invalidate_user_cache`: pops the three derived keys for
a record straight out of the cache map (counters untouched). -/
def invalidate_user_cache (c : LRUCache CVal) (email user_id : Str) :
    LRUCache CVal :=
  let c1 := odErase c.cache (email_key email)
  let c2 := odErase c1 (id_key user_id)
  let c3 := odErase c2 (duplicate_key email)
  { c with cache := c3 }

/-- `CachedUserStore.invalidate_pattern`: deletes every matching key from
the cache map directly (counters untouched). -/
def invalidate_pattern (c : LRUCache CVal) (pattern : Str) : LRUCache CVal :=
  { c with cache :=
      c.cache.filter (fun p => !(matches_pattern p.1 pattern)) }

/-- `CachedUserStore.save_user` at instant `now`, with `storeResult` the
boolean the backing store's `save_user` returned.  On failure the cache is
returned as-is; on success the three derived keys are invalidated and then
repopulated (record under the email and id keys, `True` under the dup key). -/
def save_user (c : LRUCache CVal) (now : Nat) (r : Record)
    (storeResult : Bool) : LRUCache CVal × Bool :=
  let email := strLower r.email
  let uid := r.user_id
  if storeResult then
    let c1 := invalidate_user_cache c email uid
    let c2 := c1.set now (email_key email) (CVal.record r) none
    let c3 := c2.set now (id_key uid) (CVal.record r) none
    let c4 := c3.set now (duplicate_key email) (CVal.flag true) none
    (c4, true)
  else
    (c, false)

/-! ### Helper lemmas about the ordered-dictionary model -/

/-- No pair of `l` carries the key `k`. -/
def NoKey {V : Type} (l : List (Str × V)) (k : Str) : Prop :=
  ∀ p ∈ l, p.1 ≠ k

theorem odGet_eq_none {V : Type} {l : List (Str × V)} {k : Str}
    (h : NoKey l k) : odGet l k = none := by
  induction l with
  | nil => rfl
  | cons p rest ih =>
    obtain ⟨k', v⟩ := p
    have hk : k' ≠ k := h (k', v) (by simp)
    simp only [odGet, if_neg hk]
    exact ih (fun q hq => h q (by simp [hq]))

theorem odGet_append_left {V : Type} {l₁ l₂ : List (Str × V)} {k : Str} {v : V}
    (h : odGet l₁ k = some v) : odGet (l₁ ++ l₂) k = some v := by
  induction l₁ with
  | nil => simp [odGet] at h
  | cons p rest ih =>
    obtain ⟨k', w⟩ := p
    by_cases hk : k' = k
    · simp only [odGet, if_pos hk] at h ⊢
      simpa using h
    · simp only [odGet, if_neg hk] at h ⊢
      exact ih h

theorem odGet_append_right {V : Type} {l₁ l₂ : List (Str × V)} {k : Str}
    (h : odGet l₁ k = none) : odGet (l₁ ++ l₂) k = odGet l₂ k := by
  induction l₁ with
  | nil => rfl
  | cons p rest ih =>
    obtain ⟨k', w⟩ := p
    by_cases hk : k' = k
    · simp [odGet, if_pos hk] at h
    · simp only [odGet, if_neg hk] at h
      simp only [List.cons_append, odGet, if_neg hk]
      exact ih h

theorem noKey_odErase_self {V : Type} (l : List (Str × V)) (k : Str) :
    NoKey (odErase l k) k := by
  intro p hp
  have := List.of_mem_filter hp
  simpa using this

theorem NoKey.of_odErase {V : Type} {l : List (Str × V)} {k : Str}
    (h : NoKey l k) (k' : Str) : NoKey (odErase l k') k := by
  intro p hp
  exact h p (List.mem_of_mem_filter hp)

theorem NoKey.of_drop {V : Type} {l : List (Str × V)} {k : Str}
    (h : NoKey l k) (n : Nat) : NoKey (l.drop n) k := by
  intro p hp
  exact h p (List.drop_subset n l hp)

theorem NoKey.append {V : Type} {l₁ l₂ : List (Str × V)} {k : Str}
    (h₁ : NoKey l₁ k) (h₂ : NoKey l₂ k) : NoKey (l₁ ++ l₂) k := by
  intro p hp
  rcases List.mem_append.mp hp with h | h
  · exact h₁ p h
  · exact h₂ p h

theorem odErase_eq_self {V : Type} {l : List (Str × V)} {k : Str}
    (h : NoKey l k) : odErase l k = l := by
  apply List.filter_eq_self.mpr
  intro p hp
  simpa using h p hp

theorem odErase_length_le {V : Type} (l : List (Str × V)) (k : Str) :
    (odErase l k).length ≤ l.length :=
  List.length_filter_le _ _

theorem odErase_length_lt {V : Type} {l : List (Str × V)} {k : Str}
    (h : (odGet l k).isSome) : (odErase l k).length < l.length := by
  induction l with
  | nil => simp [odGet] at h
  | cons p rest ih =>
    obtain ⟨k', v⟩ := p
    by_cases hk : k' = k
    · subst hk
      simp only [odErase, List.filter_cons, decide_eq_true_eq]
      rw [if_neg (by simp)]
      calc (List.filter (fun p => decide (p.1 ≠ k')) rest).length
          ≤ rest.length := List.length_filter_le _ _
        _ < (⟨k', v⟩ :: rest).length := by simp
    · simp only [odGet, if_neg hk] at h
      have := ih h
      simp only [odErase, List.filter_cons, decide_eq_true_eq] at this ⊢
      rw [if_pos (by simpa using hk)]
      simpa using this

theorem odGet_odErase_ne {V : Type} {l : List (Str × V)} {k k' : Str}
    (h : k' ≠ k) : odGet (odErase l k) k' = odGet l k' := by
  induction l with
  | nil => rfl
  | cons p rest ih =>
    obtain ⟨k₀, v⟩ := p
    by_cases hk : k₀ = k
    · have hne : k₀ ≠ k' := by
        intro hh
        exact h (hh ▸ hk)
      rw [show odErase ((k₀, v) :: rest) k = odErase rest k by
            simp [odErase, List.filter_cons, hk]]
      rw [ih]
      simp [odGet, if_neg hne]
    · rw [show odErase ((k₀, v) :: rest) k = (k₀, v) :: odErase rest k by
            simp [odErase, List.filter_cons, hk]]
      by_cases hq : k₀ = k'
      · simp [odGet, if_pos hq]
      · simp only [odGet, if_neg hq]
        exact ih

theorem odGet_filter_of_pred {V : Type} {l : List (Str × V)} {k : Str} {e : V}
    {f : Str × V → Bool} (hget : odGet l k = some e) (hf : f (k, e) = true) :
    odGet (l.filter f) k = some e := by
  induction l with
  | nil => simp [odGet] at hget
  | cons p rest ih =>
    obtain ⟨k₀, v⟩ := p
    by_cases hk : k₀ = k
    · subst hk
      simp only [odGet, if_pos rfl] at hget
      have hv : v = e := by injection hget
      subst hv
      rw [List.filter_cons, if_pos hf]
      simp [odGet]
    · simp only [odGet, if_neg hk] at hget
      rw [List.filter_cons]
      by_cases hfp : f (k₀, v) = true
      · rw [if_pos hfp]
        simp only [odGet, if_neg hk]
        exact ih hget
      · rw [if_neg hfp]
        exact ih hget

theorem odGet_filter_keyfun {V : Type} (l : List (Str × V)) (k : Str)
    (m : Str → Bool) :
    odGet (l.filter (fun p => !(m p.1))) k =
      if m k = true then none else odGet l k := by
  induction l with
  | nil => cases hm : m k <;> simp [odGet, hm]
  | cons p rest ih =>
    obtain ⟨k₀, v⟩ := p
    rw [List.filter_cons]
    by_cases hk : k₀ = k
    · subst hk
      cases hm : m k₀
      · rw [if_pos (by simp [hm])]
        simp [odGet, hm]
      · rw [if_neg (by simp [hm])]
        rw [ih]
        simp [hm]
    · cases hm : m k₀
      · rw [if_pos (by simp [hm])]
        simp only [odGet, if_neg hk]
        exact ih
      · rw [if_neg (by simp [hm])]
        rw [ih]
        by_cases hq : m k = true
        · simp [hq]
        · simp [hq, odGet, if_neg hk]

theorem odErase_length_of_nodup {V : Type} {l : List (Str × V)} {k : Str} {e : V}
    (hnd : (l.map Prod.fst).Nodup) (hget : odGet l k = some e) :
    (odErase l k).length + 1 = l.length := by
  induction l with
  | nil => simp [odGet] at hget
  | cons p rest ih =>
    obtain ⟨k₀, v⟩ := p
    simp only [List.map_cons, List.nodup_cons] at hnd
    by_cases hk : k₀ = k
    · subst hk
      have hnk : NoKey rest k₀ := by
        intro q hq hqk
        exact hnd.1 (hqk ▸ List.mem_map_of_mem Prod.fst hq)
      rw [show odErase ((k₀, v) :: rest) k₀ = odErase rest k₀ by
            simp [odErase, List.filter_cons]]
      rw [odErase_eq_self hnk]
      simp
    · simp only [odGet, if_neg hk] at hget
      rw [show odErase ((k₀, v) :: rest) k = (k₀, v) :: odErase rest k by
            simp [odErase, List.filter_cons, hk]]
      have := ih hnd.2 hget
      simp only [List.length_cons]
      omega

theorem map_fst_odErase {V : Type} (l : List (Str × V)) (k : Str) :
    (odErase l k).map Prod.fst =
      (l.map Prod.fst).filter (fun x => decide (x ≠ k)) := by
  induction l with
  | nil => rfl
  | cons p rest ih =>
    obtain ⟨k₀, v⟩ := p
    simp only [odErase] at ih ⊢
    rw [List.filter_cons, List.map_cons, List.filter_cons]
    by_cases hk : k₀ = k
    · rw [if_neg (by simp [hk]), if_neg (by simp [hk])]
      exact ih
    · rw [if_pos (by simp [hk]), if_pos (by simp [hk]), List.map_cons, ih]

/-! ### Capacity invariant machinery -/

theorem applyOp_max_size {V : Type} (s : LRUCache V) (op : CacheOp V) :
    (applyOp s op).max_size = s.max_size := by
  cases op with
  | get now k =>
    simp only [applyOp, LRUCache.get]
    split
    · rfl
    · split <;> rfl
  | set now k v t =>
    simp only [applyOp, LRUCache.set]
    split <;> rfl
  | del k =>
    simp only [applyOp, LRUCache.delete]
    split <;> rfl
  | clear => rfl
  | cleanup now => rfl

theorem applyOp_length_le {V : Type} (s : LRUCache V) (op : CacheOp V)
    (h : (s.cache.length : Int) ≤ s.max_size) :
    ((applyOp s op).cache.length : Int) ≤ s.max_size := by
  cases op with
  | get now k =>
    simp only [applyOp, LRUCache.get]
    split
    · exact h
    · next entry heq =>
      split
      · have h1 := odErase_length_le s.cache k
        dsimp only
        omega
      · have h1 : (odErase s.cache k).length < s.cache.length :=
          odErase_length_lt (by simp [heq])
        simp only [List.length_append, List.length_cons, List.length_nil]
        omega
  | set now k v t =>
    simp only [applyOp, LRUCache.set]
    have h1 := odErase_length_le s.cache k
    split
    · simp only [List.length_drop, List.length_append, List.length_cons,
        List.length_nil]
      omega
    · next hcond =>
      simp only [List.length_append, List.length_cons, List.length_nil] at hcond ⊢
      omega
  | del k =>
    simp only [applyOp, LRUCache.delete]
    have h1 := odErase_length_le s.cache k
    split
    · dsimp only
      omega
    · exact h
  | clear =>
    simp only [applyOp, LRUCache.clear, List.length_nil, Nat.cast_zero]
    omega
  | cleanup now =>
    simp only [applyOp, LRUCache.cleanup_expired]
    have h1 := List.length_filter_le (fun p => !(p.2.is_expired now)) s.cache
    omega

theorem execOps_inv {V : Type} (ms : Int) (ops : List (CacheOp V)) :
    ∀ s : LRUCache V, s.max_size = ms → (s.cache.length : Int) ≤ ms →
      (execOps s ops).max_size = ms ∧
        ((execOps s ops).cache.length : Int) ≤ ms := by
  induction ops with
  | nil => intro s h1 h2; exact ⟨h1, h2⟩
  | cons op rest ih =>
    intro s h1 h2
    have hm := applyOp_max_size s op
    have hl := applyOp_length_le s op (h1 ▸ h2)
    exact ih (applyOp s op) (hm.trans h1) (h1 ▸ hl)

/-! ### Claim C1 -/

/-- C1: for a cache constructed with `max_size >= 1`, after every sequence of
completed public operations (`get`/`set`/`delete`/`clear`/`cleanup_expired`)
the number of entries is at most `max_size`; moreover a single `set` call
removes at most one entry beyond replacing the key itself, and counts an
eviction exactly when the insertion pushed the size above `max_size`. -/
theorem C1_capacity_invariant {V : Type} (ms d : Int) (h : 1 ≤ ms)
    (ops : List (CacheOp V)) :
    ((execOps (LRUCache.init ms d) ops).cache.length : Int) ≤ ms ∧
    ∀ (s : LRUCache V) (now : Nat) (k : Str) (v : V) (t : Option Int),
      (odErase s.cache k).length ≤ (s.set now k v t).cache.length ∧
      (s.set now k v t).evictions =
        (if (((odErase s.cache k).length : Int) + 1 > s.max_size)
         then s.evictions + 1 else s.evictions) := by
  constructor
  · exact (execOps_inv ms ops (LRUCache.init ms d) rfl
      (by simp only [LRUCache.init, List.length_nil, Nat.cast_zero]; omega)).2
  · intro s now k v t
    simp only [LRUCache.set]
    split
    · next hcond =>
      simp only [List.length_append, List.length_cons, List.length_nil] at hcond
      constructor
      · dsimp only
        simp only [List.length_drop, List.length_append, List.length_cons,
          List.length_nil]
        omega
      · dsimp only
        rw [if_pos (by omega)]
    · next hcond =>
      simp only [List.length_append, List.length_cons, List.length_nil] at hcond
      constructor
      · dsimp only
        simp only [List.length_append, List.length_cons, List.length_nil]
        omega
      · dsimp only
        rw [if_neg (by omega)]

theorem C1_capacity_invariant_witness :
    ((execOps (LRUCache.init 3 300)
        [CacheOp.set 0 ['a'] (1 : Nat) none, CacheOp.set 1 ['b'] 2 none,
         CacheOp.set 2 ['c'] 3 none, CacheOp.set 3 ['d'] 4 none]).cache.length :
      Int) ≤ 3 :=
  (C1_capacity_invariant 3 300 (by decide) _).1

/-! ### Claim C2 -/

/-- C2 counterexample: constructing the cache with `max_size = 0` is not
rejected: the constructor completes, stores `max_size = 0` unchanged, and the
resulting cache is fully operational (a subsequent `set` runs and merely
evicts the entry it just inserted), so no construction-time fatal error
exists. -/
theorem C2_counterexample :
    (LRUCache.init 0 300 : LRUCache Nat).max_size = 0 ∧
    ((LRUCache.init 0 300 : LRUCache Nat).set 0 ['k'] 1 none).evictions = 1 ∧
    ((LRUCache.init 0 300 : LRUCache Nat).set 0 ['k'] 1 none).cache = [] := by
  refine ⟨rfl, ?_, ?_⟩ <;> decide

/-- C2 (amended): the constructor performs no validation at all: any
`max_size`, including zero and negative values, is accepted silently and
stored unchanged (never coerced); for non-positive `max_size` the constructed
cache is degenerate — every `set` inserts and then immediately evicts, so the
map stays empty. -/
theorem C2_constructor_no_validation {V : Type} (ms d : Int) (h : ms ≤ 0) :
    (LRUCache.init ms d : LRUCache V).max_size = ms ∧
    (LRUCache.init ms d : LRUCache V).cache = [] ∧
    ∀ (now : Nat) (k : Str) (v : V) (t : Option Int),
      ((LRUCache.init ms d : LRUCache V).set now k v t).cache = [] ∧
      ((LRUCache.init ms d : LRUCache V).set now k v t).evictions = 1 := by
  refine ⟨rfl, rfl, ?_⟩
  intro now k v t
  simp only [LRUCache.set, LRUCache.init]
  split
  · exact ⟨rfl, rfl⟩
  · next hcond =>
    exfalso
    simp only [odErase, List.filter_nil, List.nil_append, List.length_cons,
      List.length_nil] at hcond
    omega

theorem C2_constructor_no_validation_witness :
    ((-2 : Int) ≤ 0) ∧
    (LRUCache.init (-2) 300 : LRUCache Nat).max_size = -2 ∧
    ((LRUCache.init (-2) 300 : LRUCache Nat).set 5 ['k'] 7 none).cache = [] :=
  ⟨by decide, (C2_constructor_no_validation (-2) 300 (by decide)).1,
    ((C2_constructor_no_validation (-2) 300 (by decide)).2.2 5 ['k'] 7 none).1⟩

/-! ### Claim C3 -/

/-- C3: a `get` on a present, non-expired key returns its value and moves the
key to the most-recently-used position: the key becomes the last of the
recency list while every other key keeps its relative order.  Concretely,
with capacity 3, inserting A, B, C (non-expiring TTLs), reading A and then
inserting D evicts exactly B, leaving C, A, D. -/
theorem C3_lru_promotion {V : Type} (s : LRUCache V) (now : Nat) (k : Str)
    (e : CacheEntry V) (hget : odGet s.cache k = some e)
    (hexp : e.is_expired now = false) :
    ((s.get now k).1 = some e.value ∧
     (s.get now k).2.cache.map Prod.fst =
       ((s.cache.map Prod.fst).filter (fun x => decide (x ≠ k))) ++ [k]) ∧
    (execOps (LRUCache.init 3 300)
        [CacheOp.set 0 ['A'] (1 : Nat) (some 0), CacheOp.set 0 ['B'] 2 (some 0),
         CacheOp.set 0 ['C'] 3 (some 0), CacheOp.get 0 ['A'],
         CacheOp.set 0 ['D'] 4 (some 0)]).cache.map Prod.fst =
      [['C'], ['A'], ['D']] := by
  constructor
  · simp only [LRUCache.get, hget, hexp]
    rw [if_neg Bool.false_ne_true]
    refine ⟨rfl, ?_⟩
    dsimp only
    rw [List.map_append, map_fst_odErase]
    rfl
  · decide

theorem C3_lru_promotion_witness :
    (((⟨3, 300, [(['x'], ⟨(5 : Nat), none⟩)], 0, 0, 0⟩ :
        LRUCache Nat).get 7 ['x']).1 = some 5) ∧
    ((execOps (LRUCache.init 3 300)
        [CacheOp.set 0 ['A'] (1 : Nat) (some 0), CacheOp.set 0 ['B'] 2 (some 0),
         CacheOp.set 0 ['C'] 3 (some 0), CacheOp.get 0 ['A'],
         CacheOp.set 0 ['D'] 4 (some 0)]).cache.map Prod.fst =
      [['C'], ['A'], ['D']]) := by
  have h := C3_lru_promotion
    (⟨3, 300, [(['x'], ⟨(5 : Nat), none⟩)], 0, 0, 0⟩ : LRUCache Nat) 7 ['x']
    ⟨5, none⟩ (by decide) (by decide)
  exact ⟨h.1.1, h.2⟩

/-! ### Claim C4 -/

/-- C4: a `get` on a present but expired key returns `None`, increments
`misses` (hits unchanged), and removes the entry as part of the read: the
size decreases by one, the key is gone, and `get_stats` no longer counts it.
A `get` on a present non-expired key increments `hits` and returns the
value. -/
theorem C4_expired_get {V : Type} (s : LRUCache V) (now : Nat) (k : Str)
    (e : CacheEntry V) (hget : odGet s.cache k = some e)
    (hnd : (s.cache.map Prod.fst).Nodup) :
    (e.is_expired now = true →
      (s.get now k).1 = none ∧
      (s.get now k).2.misses = s.misses + 1 ∧
      (s.get now k).2.hits = s.hits ∧
      (s.get now k).2.cache.length + 1 = s.cache.length ∧
      odGet (s.get now k).2.cache k = none ∧
      (s.get now k).2.get_stats.size + 1 = s.cache.length) ∧
    (e.is_expired now = false →
      (s.get now k).1 = some e.value ∧
      (s.get now k).2.hits = s.hits + 1 ∧
      (s.get now k).2.misses = s.misses) := by
  constructor
  · intro hexp
    simp only [LRUCache.get, hget, hexp, if_pos rfl]
    refine ⟨rfl, rfl, rfl, ?_, ?_, ?_⟩
    · exact odErase_length_of_nodup hnd hget
    · exact odGet_eq_none (noKey_odErase_self s.cache k)
    · exact odErase_length_of_nodup hnd hget
  · intro hexp
    simp only [LRUCache.get, hget, hexp]
    rw [if_neg Bool.false_ne_true]
    exact ⟨rfl, rfl, rfl⟩

theorem C4_expired_get_witness :
    (((⟨10, 300, [(['k'], ⟨7, some 5⟩)], 0, 0, 0⟩ : LRUCache Nat).get 6
        ['k']).1 = none ∧
     ((⟨10, 300, [(['k'], ⟨7, some 5⟩)], 0, 0, 0⟩ : LRUCache Nat).get 6
        ['k']).2.misses = 0 + 1 ∧
     ((⟨10, 300, [(['k'], ⟨7, some 5⟩)], 0, 0, 0⟩ : LRUCache Nat).get 6
        ['k']).2.hits = 0 ∧
     ((⟨10, 300, [(['k'], ⟨7, some 5⟩)], 0, 0, 0⟩ : LRUCache Nat).get 6
          ['k']).2.cache.length + 1 = 1 ∧
     odGet ((⟨10, 300, [(['k'], ⟨7, some 5⟩)], 0, 0, 0⟩ : LRUCache Nat).get 6
          ['k']).2.cache ['k'] = none ∧
     ((⟨10, 300, [(['k'], ⟨7, some 5⟩)], 0, 0, 0⟩ : LRUCache Nat).get 6
          ['k']).2.get_stats.size + 1 = 1) :=
  (C4_expired_get (⟨10, 300, [(['k'], ⟨7, some 5⟩)], 0, 0, 0⟩ : LRUCache Nat) 6
    ['k'] ⟨7, some 5⟩ (by decide) (by decide)).1 (by decide)

/-! ### Claim C5 -/

/-- C5: an entry stored with `ttl <= 0` gets the infinite expiry and is never
considered expired: any later `get` (at any instant) returns its value and
keeps it, and `cleanup_expired` never removes it; for `ttl > 0` the expiry is
the insertion instant plus the ttl. -/
theorem C5_infinite_ttl {V : Type} :
    (∀ (now : Nat) (v : V) (ttl : Int), ttl ≤ 0 →
      (CacheEntry.make now v ttl).expiry = none ∧
      ∀ t : Nat, (CacheEntry.make now v ttl).is_expired t = false) ∧
    (∀ (now : Nat) (v : V) (ttl : Int), 0 < ttl →
      (CacheEntry.make now v ttl).expiry = some (now + ttl.toNat)) ∧
    (∀ (s : LRUCache V) (t : Nat) (k : Str) (e : CacheEntry V),
      odGet s.cache k = some e → e.expiry = none →
      ((s.get t k).1 = some e.value ∧
       odGet (s.get t k).2.cache k = some e ∧
       odGet (s.cleanup_expired t).2.cache k = some e)) := by
  refine ⟨?_, ?_, ?_⟩
  · intro now v ttl h
    have hmk : CacheEntry.make now v ttl = ⟨v, none⟩ := by
      simp only [CacheEntry.make]
      rw [if_neg (by omega)]
    rw [hmk]
    exact ⟨rfl, fun t => rfl⟩
  · intro now v ttl h
    simp only [CacheEntry.make]
    rw [if_pos (by omega)]
  · intro s t k e hget hinf
    have hexp : e.is_expired t = false := by
      obtain ⟨v, ex⟩ := e
      simp only at hinf
      subst hinf
      rfl
    refine ⟨?_, ?_, ?_⟩
    · simp only [LRUCache.get, hget, hexp]
      rw [if_neg Bool.false_ne_true]
    · simp only [LRUCache.get, hget, hexp]
      rw [if_neg Bool.false_ne_true]
      dsimp only
      rw [odGet_append_right (odGet_eq_none (noKey_odErase_self s.cache k))]
      simp [odGet]
    · simp only [LRUCache.cleanup_expired]
      exact odGet_filter_of_pred hget (by simp [hexp])

theorem C5_infinite_ttl_witness :
    ((CacheEntry.make 5 (7 : Nat) 0).expiry = none ∧
     (CacheEntry.make 5 (7 : Nat) 0).is_expired 1000000 = false) ∧
    (CacheEntry.make 5 (7 : Nat) 3).expiry = some (5 + (3 : Int).toNat) ∧
    (((⟨2, 300, [(['k'], ⟨7, none⟩)], 0, 0, 0⟩ : LRUCache Nat).get 1000000
        ['k']).1 = some 7 ∧
     odGet ((⟨2, 300, [(['k'], ⟨7, none⟩)], 0, 0, 0⟩ : LRUCache
          Nat).cleanup_expired 1000000).2.cache ['k'] = some ⟨7, none⟩) := by
  have h := C5_infinite_ttl (V := Nat)
  have h1 := h.1 5 7 0 (by decide)
  have h2 := h.2.1 5 7 3 (by decide)
  have h3 := h.2.2 (⟨2, 300, [(['k'], ⟨7, none⟩)], 0, 0, 0⟩ : LRUCache Nat)
    1000000 ['k'] ⟨7, none⟩ (by decide) rfl
  exact ⟨⟨h1.1, h1.2 1000000⟩, h2, h3.1, h3.2.2⟩

/-! ### Pattern-matching helpers -/

theorem takeWhile_append_star (a b : Str) (ha : '*' ∉ a) :
    (a ++ '*' :: b).takeWhile (fun c => decide (c ≠ '*')) = a := by
  induction a with
  | nil => simp [List.takeWhile_cons]
  | cons x xs ih =>
    simp only [List.mem_cons, not_or] at ha
    have hx : x ≠ '*' := fun hh => ha.1 hh.symm
    rw [List.cons_append, List.takeWhile_cons, if_pos (decide_eq_true hx),
      ih ha.2]

theorem dropWhile_append_star (a b : Str) (ha : '*' ∉ a) :
    (a ++ '*' :: b).dropWhile (fun c => decide (c ≠ '*')) = '*' :: b := by
  induction a with
  | nil => simp [List.dropWhile_cons]
  | cons x xs ih =>
    simp only [List.mem_cons, not_or] at ha
    have hx : x ≠ '*' := fun hh => ha.1 hh.symm
    rw [List.cons_append, List.dropWhile_cons, if_pos (decide_eq_true hx),
      ih ha.2]

theorem getLast_ne_star {q : Str} (hq : q ≠ []) (h : '*' ∉ q) (c : Char) :
    (c :: q).getLast? ≠ some '*' := by
  obtain ⟨l, a, rfl⟩ := List.eq_nil_or_concat q |>.resolve_left hq
  rw [List.concat_eq_append] at h ⊢
  rw [show c :: (l ++ [a]) = (c :: l) ++ [a] by simp, List.getLast?_concat]
  intro hh
  have ha : a = '*' := by injection hh
  exact h (ha ▸ List.mem_append_right l (by simp))

/-! ### Claim C7 -/

/-- C7: `invalidate_pattern` removes exactly the keys matching the pattern
and leaves every other entry (value and expiry included) unchanged; matching
is exact equality for a star-free pattern, prefix match for a trailing `*`,
suffix match for a leading `*`, and prefix-plus-suffix for one middle `*`;
in particular `email:*` removes all and only keys starting with `email:`,
leaving `id:` and `dup:` entries untouched. -/
theorem C7_pattern_invalidation :
    (∀ (c : LRUCache CVal) (pat k : Str),
      odGet (invalidate_pattern c pat).cache k =
        if matches_pattern k pat = true then none else odGet c.cache k) ∧
    (∀ k p : Str, '*' ∉ p → (matches_pattern k p = true ↔ k = p)) ∧
    (∀ k q : Str, '*' ∉ q →
      (matches_pattern k (q ++ ['*']) = true ↔ ∃ t, k = q ++ t)) ∧
    (∀ k q : Str, '*' ∉ q → q ≠ [] →
      (matches_pattern k ('*' :: q) = true ↔ ∃ t, k = t ++ q)) ∧
    (∀ k a b : Str, '*' ∉ a → '*' ∉ b → a ≠ [] → b ≠ [] →
      (matches_pattern k (a ++ '*' :: b) = true ↔
        (∃ t, k = a ++ t) ∧ (∃ t, k = t ++ b))) ∧
    (∀ (c : LRUCache CVal) (u : Str),
      odGet (invalidate_pattern c ['e', 'm', 'a', 'i', 'l', ':', '*']).cache
          (id_key u) = odGet c.cache (id_key u) ∧
      odGet (invalidate_pattern c ['e', 'm', 'a', 'i', 'l', ':', '*']).cache
          (duplicate_key u) = odGet c.cache (duplicate_key u)) ∧
    (∀ (c : LRUCache CVal) (k : Str),
      (∃ t, k = 'e' :: 'm' :: 'a' :: 'i' :: 'l' :: ':' :: t) →
      odGet (invalidate_pattern c ['e', 'm', 'a', 'i', 'l', ':', '*']).cache
        k = none) := by
  have hmain : ∀ (c : LRUCache CVal) (pat k : Str),
      odGet (invalidate_pattern c pat).cache k =
        if matches_pattern k pat = true then none else odGet c.cache k := by
    intro c pat k
    simp only [invalidate_pattern]
    exact odGet_filter_keyfun c.cache k (fun x => matches_pattern x pat)
  have htrail : ∀ k q : Str, '*' ∉ q →
      matches_pattern k (q ++ ['*']) = q.isPrefixOf k := by
    intro k q hq
    simp only [matches_pattern]
    rw [if_neg (by simp), if_pos (by rw [List.getLast?_concat]),
      List.dropLast_concat]
  refine ⟨hmain, ?_, ?_, ?_, ?_, ?_, ?_⟩
  · intro k p hp
    simp [matches_pattern, hp]
  · intro k q hq
    rw [htrail k q hq, List.isPrefixOf_iff_prefix]
    exact ⟨fun ⟨t, ht⟩ => ⟨t, ht.symm⟩, fun ⟨t, ht⟩ => ⟨t, ht.symm⟩⟩
  · intro k q hq hne
    simp only [matches_pattern]
    rw [if_neg (by simp), if_neg (getLast_ne_star hne hq '*'),
      if_pos (by rfl)]
    rw [show ('*' :: q).drop 1 = q from rfl, List.isSuffixOf_iff_suffix]
    exact ⟨fun ⟨t, ht⟩ => ⟨t, ht.symm⟩, fun ⟨t, ht⟩ => ⟨t, ht.symm⟩⟩
  · intro k a b ha hb hane hbne
    obtain ⟨x, xs, rfl⟩ := List.exists_cons_of_ne_nil hane
    have hx : x ≠ '*' := by
      intro hh
      exact ha (hh ▸ List.mem_cons_self x xs)
    have hxs : '*' ∉ xs := fun hh => ha (List.mem_cons_of_mem x hh)
    simp only [matches_pattern]
    rw [if_neg (by simp)]
    rw [if_neg ?hlast]
    case hlast =>
      obtain ⟨l, cb, rfl⟩ := List.eq_nil_or_concat b |>.resolve_left hbne
      rw [List.concat_eq_append] at hb ⊢
      rw [show (x :: xs) ++ '*' :: (l ++ [cb]) =
            ((x :: xs) ++ '*' :: l) ++ [cb] by simp, List.getLast?_concat]
      intro hh
      have hcb : cb = '*' := by injection hh
      exact hb (hcb ▸ List.mem_append_right l (by simp))
    rw [if_neg (by
      rw [List.cons_append]
      simp only [List.head?_cons, Option.some.injEq]
      exact fun hh => hx hh)]
    rw [takeWhile_append_star (x :: xs) b ha, dropWhile_append_star (x :: xs) b ha]
    rw [show ('*' :: b).drop 1 = b from rfl]
    rw [Bool.and_eq_true, List.isPrefixOf_iff_prefix, List.isSuffixOf_iff_suffix]
    constructor
    · rintro ⟨⟨t, ht⟩, ⟨u, hu⟩⟩
      exact ⟨⟨t, ht.symm⟩, ⟨u, hu.symm⟩⟩
    · rintro ⟨⟨t, ht⟩, ⟨u, hu⟩⟩
      exact ⟨⟨t, ht.symm⟩, ⟨u, hu.symm⟩⟩
  · intro c u
    constructor
    · rw [hmain, if_neg (by simp [matches_pattern, id_key, List.isPrefixOf])]
    · rw [hmain,
        if_neg (by simp [matches_pattern, duplicate_key, List.isPrefixOf])]
  · intro c k hk
    obtain ⟨t, rfl⟩ := hk
    rw [hmain, if_pos (by simp [matches_pattern, List.isPrefixOf])]

theorem C7_pattern_invalidation_witness :
    ('*' ∉ (['a', 'b'] : Str)) ∧
    (matches_pattern ['a', 'b', 'c'] (['a', 'b'] ++ ['*']) = true ↔
      ∃ t, (['a', 'b', 'c'] : Str) = ['a', 'b'] ++ t) ∧
    odGet (invalidate_pattern
        (⟨10, 300,
          [(['e', 'm', 'a', 'i', 'l', ':', 'a'], ⟨CVal.flag true, none⟩)],
          0, 0, 0⟩ : LRUCache CVal)
        ['e', 'm', 'a', 'i', 'l', ':', '*']).cache
      ['e', 'm', 'a', 'i', 'l', ':', 'a'] = none :=
  ⟨by decide,
   C7_pattern_invalidation.2.2.1 ['a', 'b', 'c'] ['a', 'b'] (by decide),
   C7_pattern_invalidation.2.2.2.2.2.2 _ _ ⟨['a'], rfl⟩⟩

/-! ### Claim C8 -/

/-- C8: `get_stats` reports `hit_rate = hits / (hits + misses) * 100` rounded
to two decimals and `0` when no requests have occurred; after exactly one hit
and one miss the reported rate is `50`; `clear` resets hits, misses and
evictions to zero. -/
theorem C8_hit_rate_arithmetic {V : Type} :
    (∀ s : LRUCache V, s.get_stats.hit_rate =
      if s.hits + s.misses = 0 then 0
      else round2 ((s.hits : ℚ) / ((s.hits : ℚ) + (s.misses : ℚ)) * 100)) ∧
    ((execOps (LRUCache.init 10 300)
        [CacheOp.set 0 ['k'] (1 : Nat) none, CacheOp.get 0 ['k'],
         CacheOp.get 0 ['z']]).hits = 1 ∧
     (execOps (LRUCache.init 10 300)
        [CacheOp.set 0 ['k'] (1 : Nat) none, CacheOp.get 0 ['k'],
         CacheOp.get 0 ['z']]).misses = 1 ∧
     (execOps (LRUCache.init 10 300)
        [CacheOp.set 0 ['k'] (1 : Nat) none, CacheOp.get 0 ['k'],
         CacheOp.get 0 ['z']]).get_stats.hit_rate = 50) ∧
    (∀ s : LRUCache V, s.clear.hits = 0 ∧ s.clear.misses = 0 ∧
      s.clear.evictions = 0) := by
  have hf : ∀ (W : Type) (s : LRUCache W), s.get_stats.hit_rate =
      if s.hits + s.misses = 0 then 0
      else round2 ((s.hits : ℚ) / ((s.hits : ℚ) + (s.misses : ℚ)) * 100) := by
    intro W s
    simp only [LRUCache.get_stats]
    by_cases h0 : s.hits + s.misses = 0
    · rw [if_neg (by omega), if_pos h0]
      norm_num [round2]
    · rw [if_pos (by omega), if_neg h0]
      congr 1
      push_cast
      ring
  refine ⟨hf V, ⟨by decide, by decide, ?_⟩, fun s => ⟨rfl, rfl, rfl⟩⟩
  rw [hf Nat]
  rw [show (execOps (LRUCache.init 10 300)
        [CacheOp.set 0 ['k'] (1 : Nat) none, CacheOp.get 0 ['k'],
         CacheOp.get 0 ['z']]).hits = 1 from by decide]
  rw [show (execOps (LRUCache.init 10 300)
        [CacheOp.set 0 ['k'] (1 : Nat) none, CacheOp.get 0 ['k'],
         CacheOp.get 0 ['z']]).misses = 1 from by decide]
  norm_num [round2]

/-! ### Claim C10 -/

/-- C10: calling `invalidate_pattern` with the bare pattern `*` removes every
entry from the cache, for every cache state: the trailing-wildcard branch
reduces the test to a prefix check against the empty string, which every key
passes. -/
theorem C10_star_invalidates_all (c : LRUCache CVal) :
    (∀ k : Str, matches_pattern k ['*'] = true) ∧
    (invalidate_pattern c ['*']).cache = [] := by
  have hm : ∀ k : Str, matches_pattern k ['*'] = true := by
    intro k
    simp [matches_pattern, List.isPrefixOf]
  refine ⟨hm, ?_⟩
  simp only [invalidate_pattern]
  apply List.filter_eq_nil_iff.mpr
  intro p hp
  simp [hm p.1]

/-! ### Derived-key distinctness and the `save_user` chain -/

theorem email_key_ne_id_key (a b : Str) : email_key a ≠ id_key b := by
  intro h
  simp only [email_key, id_key, List.cons.injEq] at h
  exact absurd h.1 (by decide)

theorem email_key_ne_duplicate_key (a b : Str) :
    email_key a ≠ duplicate_key b := by
  intro h
  simp only [email_key, duplicate_key, List.cons.injEq] at h
  exact absurd h.1 (by decide)

theorem id_key_ne_duplicate_key (a b : Str) : id_key a ≠ duplicate_key b := by
  intro h
  simp only [id_key, duplicate_key, List.cons.injEq] at h
  exact absurd h.1 (by decide)

theorem set_keeps_fields {V : Type} (s : LRUCache V) (now : Nat) (k : Str)
    (v : V) (t : Option Int) :
    (s.set now k v t).max_size = s.max_size ∧
      (s.set now k v t).default_ttl = s.default_ttl := by
  simp only [LRUCache.set]
  split <;> exact ⟨rfl, rfl⟩

theorem set_cache_noKey {V : Type} (s : LRUCache V) (now : Nat) (k : Str)
    (v : V) (t : Option Int) (h1 : 1 ≤ s.max_size) (hk : NoKey s.cache k) :
    ∃ n, n ≤ 1 ∧ n ≤ s.cache.length ∧
      (s.set now k v t).cache =
        s.cache.drop n ++
          [(k, CacheEntry.make now v (t.getD s.default_ttl))] ∧
      (n = 1 → ((s.cache.length : Int) + 1 > s.max_size)) := by
  simp only [LRUCache.set, odErase_eq_self hk]
  split
  · next hcond =>
    simp only [List.length_append, List.length_cons, List.length_nil] at hcond
    have hlen : 1 ≤ s.cache.length := by omega
    refine ⟨1, le_refl 1, hlen, ?_, fun _ => by omega⟩
    dsimp only
    rw [List.drop_append_of_le_length hlen]
  · next hcond =>
    exact ⟨0, by omega, by omega, rfl, by omega⟩

theorem set3_cache {V : Type} (s : LRUCache V) (now : Nat) (k1 k2 k3 : Str)
    (v1 v2 v3 : V) (h3 : 3 ≤ s.max_size)
    (hk1 : NoKey s.cache k1) (hk2 : NoKey s.cache k2) (hk3 : NoKey s.cache k3)
    (h12 : k1 ≠ k2) (h13 : k1 ≠ k3) (h23 : k2 ≠ k3) :
    ∃ m,
      (((s.set now k1 v1 none).set now k2 v2 none).set now k3 v3 none).cache =
        s.cache.drop m ++
          [(k1, CacheEntry.make now v1 s.default_ttl),
           (k2, CacheEntry.make now v2 s.default_ttl),
           (k3, CacheEntry.make now v3 s.default_ttl)] := by
  have hf1 := set_keeps_fields s now k1 v1 (none : Option Int)
  obtain ⟨n1, hn1le, hn1len, hc1, hcond1⟩ :=
    set_cache_noKey s now k1 v1 none (by omega) hk1
  simp only [Option.getD_none] at hc1
  -- after the first set
  have hnk2 : NoKey (s.set now k1 v1 none).cache k2 := by
    rw [hc1]
    refine (hk2.of_drop n1).append ?_
    intro p hp
    simp only [List.mem_singleton] at hp
    subst hp
    exact h12
  have hf2 := set_keeps_fields (s.set now k1 v1 none) now k2 v2
    (none : Option Int)
  obtain ⟨n2, hn2le, hn2len, hc2, hcond2⟩ :=
    set_cache_noKey (s.set now k1 v1 none) now k2 v2 none
      (by rw [hf1.1]; omega) hnk2
  simp only [Option.getD_none, hf1.2] at hc2
  -- merge the first two sets: the cache is a tail of `s.cache` plus both keys
  have hA2 : ∃ m2,
      ((s.set now k1 v1 none).set now k2 v2 none).cache =
        s.cache.drop m2 ++
          [(k1, CacheEntry.make now v1 s.default_ttl),
           (k2, CacheEntry.make now v2 s.default_ttl)] := by
    rcases (by omega : n2 = 0 ∨ n2 = 1) with h | h
    · subst h
      refine ⟨n1, ?_⟩
      rw [hc2, hc1, List.drop_zero]
      simp
    · subst h
      have hlong := hcond2 rfl
      rw [hf1.1] at hlong
      rw [hc1] at hlong
      simp only [List.length_append, List.length_cons, List.length_nil]
        at hlong
      have hge : 1 ≤ (s.cache.drop n1).length := by omega
      refine ⟨n1 + 1, ?_⟩
      rw [hc2, hc1, List.drop_append_of_le_length hge]
      rw [show (s.cache.drop n1).drop 1 = s.cache.drop (n1 + 1) by
            rw [List.drop_drop]]
      simp
  obtain ⟨m2, hm2⟩ := hA2
  -- the third set
  have hnk3 : NoKey ((s.set now k1 v1 none).set now k2 v2 none).cache k3 := by
    rw [hm2]
    refine (hk3.of_drop m2).append ?_
    intro p hp
    simp only [List.mem_cons, List.mem_singleton, List.not_mem_nil] at hp
    rcases hp with h | h
    · subst h; exact h13
    · rcases h with h | h
      · subst h; exact h23
      · exact absurd h (by simp)
  have hf3 := set_keeps_fields ((s.set now k1 v1 none).set now k2 v2 none) now
    k3 v3 (none : Option Int)
  obtain ⟨n3, hn3le, hn3len, hc3, hcond3⟩ :=
    set_cache_noKey ((s.set now k1 v1 none).set now k2 v2 none) now k3 v3 none
      (by rw [hf2.1, hf1.1]; omega) hnk3
  simp only [Option.getD_none, hf2.2, hf1.2] at hc3
  rcases (by omega : n3 = 0 ∨ n3 = 1) with h | h
  · subst h
    refine ⟨m2, ?_⟩
    rw [hc3, hm2, List.drop_zero]
    simp
  · subst h
    have hlong := hcond3 rfl
    rw [hf2.1, hf1.1] at hlong
    rw [hm2] at hlong
    simp only [List.length_append, List.length_cons, List.length_nil] at hlong
    have hge : 1 ≤ (s.cache.drop m2).length := by omega
    refine ⟨m2 + 1, ?_⟩
    rw [hc3, hm2, List.drop_append_of_le_length hge]
    rw [show (s.cache.drop m2).drop 1 = s.cache.drop (m2 + 1) by
          rw [List.drop_drop]]
    simp

theorem save_user_true_cache (c : LRUCache CVal) (now : Nat) (r : Record)
    (h3 : 3 ≤ c.max_size) :
    ∃ m, (save_user c now r true).1.cache =
      ((invalidate_user_cache c (strLower r.email) r.user_id).cache.drop m) ++
        [(email_key (strLower r.email),
          CacheEntry.make now (CVal.record r) c.default_ttl),
         (id_key r.user_id, CacheEntry.make now (CVal.record r) c.default_ttl),
         (duplicate_key (strLower r.email),
          CacheEntry.make now (CVal.flag true) c.default_ttl)] := by
  have hcache : (invalidate_user_cache c (strLower r.email) r.user_id).cache =
      odErase (odErase (odErase c.cache (email_key (strLower r.email)))
        (id_key r.user_id)) (duplicate_key (strLower r.email)) := rfl
  have hk1 : NoKey (invalidate_user_cache c (strLower r.email) r.user_id).cache
      (email_key (strLower r.email)) := by
    rw [hcache]
    exact ((noKey_odErase_self _ _).of_odErase _).of_odErase _
  have hk2 : NoKey (invalidate_user_cache c (strLower r.email) r.user_id).cache
      (id_key r.user_id) := by
    rw [hcache]
    exact (noKey_odErase_self _ _).of_odErase _
  have hk3 : NoKey (invalidate_user_cache c (strLower r.email) r.user_id).cache
      (duplicate_key (strLower r.email)) := by
    rw [hcache]
    exact noKey_odErase_self _ _
  obtain ⟨m, hm⟩ := set3_cache
    (invalidate_user_cache c (strLower r.email) r.user_id) now
    (email_key (strLower r.email)) (id_key r.user_id)
    (duplicate_key (strLower r.email))
    (CVal.record r) (CVal.record r) (CVal.flag true) h3 hk1 hk2 hk3
    (email_key_ne_id_key _ _) (email_key_ne_duplicate_key _ _)
    (id_key_ne_duplicate_key _ _)
  exact ⟨m, hm⟩

/-! ### Claim C6 -/

/-- C6: `save_user` is atomic with respect to backing-store failure: when the
backing store reports failure the cache state is returned completely
unchanged (and `false` is propagated); on success the call returns `true` and
the three derived keys are present in the cache holding the new record (email
and id keys) and `True` (dup key), each with the default TTL. -/
theorem C6_save_user_atomic (c : LRUCache CVal) (now : Nat) (r : Record) :
    (save_user c now r false = (c, false)) ∧
    (3 ≤ c.max_size →
      ((save_user c now r true).2 = true ∧
       odGet (save_user c now r true).1.cache
           (email_key (strLower r.email)) =
         some (CacheEntry.make now (CVal.record r) c.default_ttl) ∧
       odGet (save_user c now r true).1.cache (id_key r.user_id) =
         some (CacheEntry.make now (CVal.record r) c.default_ttl) ∧
       odGet (save_user c now r true).1.cache
           (duplicate_key (strLower r.email)) =
         some (CacheEntry.make now (CVal.flag true) c.default_ttl))) := by
  constructor
  · rfl
  · intro h3
    obtain ⟨m, hm⟩ := save_user_true_cache c now r h3
    have hb1 : NoKey
        ((invalidate_user_cache c (strLower r.email) r.user_id).cache.drop m)
        (email_key (strLower r.email)) :=
      NoKey.of_drop (((noKey_odErase_self _ _).of_odErase _).of_odErase _) m
    have hb2 : NoKey
        ((invalidate_user_cache c (strLower r.email) r.user_id).cache.drop m)
        (id_key r.user_id) :=
      NoKey.of_drop ((noKey_odErase_self _ _).of_odErase _) m
    have hb3 : NoKey
        ((invalidate_user_cache c (strLower r.email) r.user_id).cache.drop m)
        (duplicate_key (strLower r.email)) :=
      NoKey.of_drop (noKey_odErase_self _ _) m
    refine ⟨rfl, ?_, ?_, ?_⟩
    · rw [hm, odGet_append_right (odGet_eq_none hb1)]
      simp [odGet]
    · rw [hm, odGet_append_right (odGet_eq_none hb2)]
      simp [odGet, email_key_ne_id_key]
    · rw [hm, odGet_append_right (odGet_eq_none hb3)]
      simp [odGet, email_key_ne_duplicate_key, id_key_ne_duplicate_key]

theorem C6_save_user_atomic_witness :
    (save_user (LRUCache.init 10 300) 0 ⟨['A'], ['1']⟩ false =
      (LRUCache.init 10 300, false)) ∧
    odGet (save_user (LRUCache.init 10 300) 0 ⟨['A'], ['1']⟩ true).1.cache
        (email_key (strLower ['A'])) =
      some (CacheEntry.make 0 (CVal.record ⟨['A'], ['1']⟩)
        (LRUCache.init (V := CVal) 10 300).default_ttl) :=
  ⟨(C6_save_user_atomic (LRUCache.init 10 300) 0 ⟨['A'], ['1']⟩).1,
   ((C6_save_user_atomic (LRUCache.init 10 300) 0 ⟨['A'], ['1']⟩).2
      (by decide)).2.1⟩

theorem C8_hit_rate_arithmetic_witness :
    (execOps (LRUCache.init 10 300)
        [CacheOp.set 0 ['k'] (1 : Nat) none, CacheOp.get 0 ['k'],
         CacheOp.get 0 ['z']]).hits = 1 ∧
    (LRUCache.init (V := Nat) 5 9).clear.hits = 0 :=
  ⟨(C8_hit_rate_arithmetic (V := Nat)).2.1.1,
   ((C8_hit_rate_arithmetic (V := Nat)).2.2 (LRUCache.init 5 9)).1⟩

theorem C10_star_invalidates_all_witness :
    (invalidate_pattern (LRUCache.init 10 300) ['*']).cache = [] :=
  (C10_star_invalidates_all (LRUCache.init 10 300)).2
